import Mathlib

/-!
Verification of the search-sifter core against its specification.

The definitions below are shallow embeddings of the Python sources:
  * `searchsifter/Family.py`  (interval algebra, `Family`, `overlap`, `union`)
  * `searchsifter/relationships/jaccard.py` and `minhash.py`
  * `searchsifter/relationships/pfam.py` (signature repository memoization)
  * `searchsifter/sifter.py`  (the classification pipeline stages)

Machine floats are modelled by `ℚ` (all quantities involved are ratios of
small integers), Python sets by `Finset`, Python dicts by functions into
`Option`, and Python list objects (for the aliasing analysis of packets)
by references into an explicit heap.
-/

namespace SearchSifter

/-! ### Interval algebra (`Family.py`)

A Python `range(start, stop)` is embedded as the pair `(start, stop)` of
integers, half-open.  `olen` is Python's `len(range(a, b))`, which is
`max 0 (b - a)`. -/

abbrev Rg := ℤ × ℤ

/-- `len(range(a, b))` in Python: `max 0 (b - a)`. -/
def olen (r : Rg) : ℤ := max 0 (r.2 - r.1)

/-- `overlap(start_1, end_1, start_2, end_2)` from `Family.py`: inclusive
coordinates in, half-open range out. -/
def ovl (s1 e1 s2 e2 : ℤ) : Rg := (max s1 s2, min e1 e2 + 1)

/-- The sort key used by `_merge_ranges`: lexicographic on `(start, stop)`.
This is also Python's tuple comparison, used for `sorted(r1)` in
`Family.overlap`. -/
def rgLe (a b : Rg) : Prop := a.1 < b.1 ∨ (a.1 = b.1 ∧ a.2 ≤ b.2)

instance : DecidableRel rgLe := fun a b =>
  inferInstanceAs (Decidable (a.1 < b.1 ∨ (a.1 = b.1 ∧ a.2 ≤ b.2)))

instance : IsTrans Rg rgLe :=
  ⟨by intro a b c hab hbc; unfold rgLe at *; omega⟩

instance : IsAntisymm Rg rgLe :=
  ⟨by
    intro a b hab hba
    unfold rgLe at *
    have h1 : a.1 = b.1 := by omega
    have h2 : a.2 = b.2 := by omega
    exact Prod.ext h1 h2⟩

instance : IsTotal Rg rgLe :=
  ⟨by intro a b; unfold rgLe; omega⟩

/-- Boolean form of `rgLe`, for `List.mergeSort`. -/
def rgLeB (a b : Rg) : Bool := decide (rgLe a b)

/-- Python's `sorted(ranges, key=lambda r: (r.start, r.stop))`. -/
def sortRanges (l : List Rg) : List Rg := l.mergeSort rgLeB

/-- The merging test in the loop body of `_merge_ranges`:
`len(overlap(r1.start, r1.stop - 1, r2.start, r2.stop - 1)) or r1.stop == r2.start`. -/
def mergeCond (r1 r2 : Rg) : Prop :=
  0 < olen (ovl r1.1 (r1.2 - 1) r2.1 (r2.2 - 1)) ∨ r1.2 = r2.1

instance : ∀ r1 r2, Decidable (mergeCond r1 r2) := fun r1 r2 =>
  inferInstanceAs (Decidable (_ ∨ _))

/-- One iteration of the loop in `_merge_ranges`: compare the incoming range
with the last element of the accumulator `u`; either pop it and push the
combined range, or append. -/
def mergeStep (u : List Rg) (r : Rg) : List Rg :=
  match u.getLast? with
  | none => [r]
  | some r1 =>
    if mergeCond r1 r then
      u.dropLast ++ [(min r1.1 r.1, max r1.2 r.2)]
    else
      u ++ [r]

/-- `_merge_ranges(ranges)` from `Family.py`, on a list of ranges. -/
def mergeRanges (ranges : List Rg) : List Rg :=
  (sortRanges ranges).foldl mergeStep []

/-- `_merge_ranges` applied to a Python `set` of ranges (as in
`Family.overlap` and `Family.union`): `sorted` enumerates the distinct
elements in key order. -/
def mergeFinset (s : Finset Rg) : List Rg :=
  (s.sort rgLe).foldl mergeStep []

/-- Tail-recursive rendering of the `_merge_ranges` loop: `cur` is the last
element of the accumulator, everything before it is already frozen. -/
def mergeGo (cur : Rg) : List Rg → List Rg
  | [] => [cur]
  | r :: rs =>
    if mergeCond cur r then
      mergeGo (min cur.1 r.1, max cur.2 r.2) rs
    else
      cur :: mergeGo r rs

/-- The point `x` lies in the half-open range `r`. -/
def covers (r : Rg) (x : ℤ) : Prop := r.1 ≤ x ∧ x < r.2

/-- The point `x` lies in some range of the list `l`. -/
def coversL (l : List Rg) (x : ℤ) : Prop := ∃ r ∈ l, covers r x

/-- Two range lists cover exactly the same integer points. -/
def sameCoverage (l1 l2 : List Rg) : Prop := ∀ x, coversL l1 x ↔ coversL l2 x

/-- A range is nonempty (covers at least one point). -/
def validR (r : Rg) : Prop := r.1 < r.2

instance : ∀ r, Decidable (validR r) := fun r =>
  inferInstanceAs (Decidable (r.1 < r.2))

/-- Consecutive ranges are separated by a gap: disjoint and not adjacent. -/
def gapAfter (a b : Rg) : Prop := a.2 < b.1

/-! ### The Family region model (`Family.py`) -/

/-- A `Family`'s region store: the log of `add_region(acc, start, end)`
calls.  A protein maps to the list of its `(start, end)` inclusive tuples
in insertion order (`self._regions`, a `defaultdict(list)`). -/
structure FamilyR where
  regions : List (String × ℤ × ℤ)

/-- `Family.proteins()`: the keys of `self._regions`. -/
def FamilyR.proteins (f : FamilyR) : Finset String :=
  (f.regions.map (fun t => t.1)).toFinset

/-- `self._regions[acc]`: the region tuple list stored for one protein. -/
def FamilyR.regionsOf (f : FamilyR) (p : String) : List (ℤ × ℤ) :=
  (f.regions.filter (fun t => decide (t.1 = p))).map (fun t => t.2)

/-- The data-model invariant on ranges (`start <= end`, §3 of the spec);
`add_region` callers supply protein region coordinates satisfying it. -/
def FamilyR.validRegions (f : FamilyR) : Prop :=
  ∀ t ∈ f.regions, t.2.1 ≤ t.2.2

instance : ∀ f : FamilyR, Decidable f.validRegions := fun f =>
  inferInstanceAs (Decidable (∀ t ∈ f.regions, t.2.1 ≤ t.2.2))

/-- `reduce(operator.or_, map(lambda o: o.proteins(), families))`. -/
def unionProteins (fams : List FamilyR) : Finset String :=
  fams.foldl (fun acc f => acc ∪ f.proteins) ∅

/-- The per-protein tuple set collected by `Family.union`:
`reduce(operator.or_, (set of f._regions.get(protein) over families))`. -/
def unionTuples (fams : List FamilyR) (p : String) : Finset (ℤ × ℤ) :=
  fams.foldl (fun acc f => acc ∪ (f.regionsOf p).toFinset) ∅

/-- `Family.union(self, *others)` from `Family.py` with
`families = [self] + list(others)`: for every protein in any family, turn
the collected inclusive tuples into half-open ranges
(`range(s, e + 1)`) and merge.  The result dict is modelled as a function
that is `none` outside its keys. -/
def familyUnion (fams : List FamilyR) : String → Option (List Rg) := fun p =>
  if p ∈ unionProteins fams then
    some (mergeFinset ((unionTuples fams p).image (fun t => (t.1, t.2 + 1))))
  else none

/-! ### `Family.overlap` (`Family.py`) -/

/-- The inner loop of `Family.overlap` over the sorted region tuples of the
second family: stop at the first candidate starting past `e1`
(`if s2 > e1: break`) and collect each nonempty pairwise overlap
(`if len(o): overlaps[acc1].add(o)`). -/
def innerOverlaps (s1 e1 : ℤ) : List (ℤ × ℤ) → List Rg
  | [] => []
  | (s2, e2) :: rest =>
    if e1 < s2 then []
    else
      (if 0 < olen (ovl s1 e1 s2 e2) then [ovl s1 e1 s2 e2] else [])
        ++ innerOverlaps s1 e1 rest

/-- The set `overlaps[acc]` built by the double loop of `Family.overlap`
for one protein (`sorted_r1`, `sorted_r2` are Python's `sorted` on the
tuple lists, which is `sortRanges` here). -/
def collectOverlaps (r1 r2 : List (ℤ × ℤ)) : Finset Rg :=
  ((sortRanges r1).map
      (fun t => innerOverlaps t.1 t.2 (sortRanges r2))).flatten.toFinset

/-- Order-free characterisation of the collected set: all nonempty
pairwise overlaps of the two region lists. -/
def pairOverlaps (r1 r2 : List (ℤ × ℤ)) : Finset Rg :=
  ((r1.toFinset ×ˢ r2.toFinset).filter
      (fun q => 0 < olen (ovl q.1.1 q.1.2 q.2.1 q.2.2))).image
    (fun q => ovl q.1.1 q.1.2 q.2.1 q.2.2)

/-- The per-protein body of `Family.overlap`, keyed on the protein
intersection of the two families (`f1` is iterated on the outside). -/
def overlapPerProtein (x y : FamilyR) (p : String) : Option (List Rg) :=
  if p ∈ x.proteins ∩ y.proteins then
    some (mergeFinset (collectOverlaps (x.regionsOf p) (y.regionsOf p)))
  else none

/-- `Family.overlap(self, other)` from `Family.py`: the family with
strictly fewer proteins is iterated first (`f1, f2 = self, other` when
`len(self.proteins()) < len(other.proteins())`, else `f2, f1 = self, other`). -/
def familyOverlap (a b : FamilyR) : String → Option (List Rg) :=
  if a.proteins.card < b.proteins.card then overlapPerProtein a b
  else overlapPerProtein b a

/-! ### Similarity primitives (`jaccard.py`, `minhash.py`) -/

/-- The `_zero_on_divide_by_zero` decorator from `jaccard.py`: the ratio
`num / den`, with the `ZeroDivisionError` handler returning `0`. -/
def ratio0 (num den : ℕ) : ℚ := if den = 0 then 0 else (num : ℚ) / den

/-- `jaccard(s, t)` from `jaccard.py`: `len(s_ & t_) / len(s_ | t_)`. -/
def jaccard (s t : Finset ℕ) : ℚ := ratio0 (s ∩ t).card (s ∪ t).card

/-- `jaccard_containment(s, t)` from `jaccard.py`: the code computes
`len(s_ & t_) / len(s_)` — the denominator is the cardinality of the FIRST
argument. -/
def jaccard_containment (s t : Finset ℕ) : ℚ := ratio0 (s ∩ t).card s.card

/-- The formula stated by the specification for `jaccard_containment`:
`C(S, T) = |S ∩ T| / |T|`, with `0` on a zero denominator. -/
def specContainment (s t : Finset ℕ) : ℚ := ratio0 (s ∩ t).card t.card

/-- Python's comparison on `(hash, element)` tuples: lexicographic, ties
in the hash broken by the element. -/
def hpLe (a b : ℕ × ℕ) : Prop := a.1 < b.1 ∨ (a.1 = b.1 ∧ a.2 ≤ b.2)

instance : DecidableRel hpLe := fun a b =>
  inferInstanceAs (Decidable (a.1 < b.1 ∨ (a.1 = b.1 ∧ a.2 ≤ b.2)))

instance : IsTrans (ℕ × ℕ) hpLe :=
  ⟨by intro a b c hab hbc; unfold hpLe at *; omega⟩

instance : IsAntisymm (ℕ × ℕ) hpLe :=
  ⟨by
    intro a b hab hba
    unfold hpLe at *
    have h1 : a.1 = b.1 := by omega
    have h2 : a.2 = b.2 := by omega
    exact Prod.ext h1 h2⟩

instance : IsTotal (ℕ × ℕ) hpLe :=
  ⟨by intro a b; unfold hpLe; omega⟩

/-- `signature(s, n, hash_function)` from `minhash.py`:
`set(sorted((hash_function(e), e) for e in s)[:n])`.  Elements are
embedded as naturals and the hash function is an arbitrary parameter. -/
def mhSignature (hf : ℕ → ℕ) (s : Finset ℕ) (n : ℕ) : Finset (ℕ × ℕ) :=
  (((s.image (fun e => (hf e, e))).sort hpLe).take n).toFinset

/-- `union_signature(s, t, n)` from `minhash.py` (two-signature case):
`set(sorted(s | t)[:n])`. -/
def unionSignature (s t : Finset (ℕ × ℕ)) (n : ℕ) : Finset (ℕ × ℕ) :=
  (((s ∪ t).sort hpLe).take n).toFinset

/-- `intersection_signature(X, s, t)` from `minhash.py`:
`reduce(operator.and_, sets)`. -/
def intersectionSignature3 (x s t : Finset (ℕ × ℕ)) : Finset (ℕ × ℕ) :=
  x ∩ s ∩ t

/-- `minhash(s, t, n)` from `minhash.py`, with the divide-by-zero
decorator: `len(Y) / len(X)` for `X = union_signature(s, t, n)` and
`Y = intersection_signature(X, s, t)`. -/
def minhash (s t : Finset (ℕ × ℕ)) (n : ℕ) : ℚ :=
  ratio0 (intersectionSignature3 (unionSignature s t n) s t).card
    (unionSignature s t n).card

/-! ### The sifter pipeline (`sifter.py`) -/

/-- The three sinks of a `HashSifter`. -/
inductive HSink
  | low
  | high
  | other
deriving DecidableEq

/-- `HashSifter.sift` routing (lines 66-72 of `sifter.py`), applied to the
scores dict produced by the injected `sift_method`.  `reduce` without an
initialiser raises `TypeError` on an empty sequence, so an empty catalog
produces no routing decision (`none`); on a nonempty one,
`reduce(operator.and_, ...)` is the finite conjunction and
`reduce(operator.or_, ...)` the finite disjunction, and
`sum(v >= low_threshold ...)` counts the qualifying scores. -/
def hashRoute (scores : List (String × ℚ)) (lowT highT : ℚ) : Option HSink :=
  match scores with
  | [] => none
  | _ :: _ =>
    if ∀ fs ∈ scores, fs.2 ≤ lowT then some HSink.low
    else if (∃ fs ∈ scores, highT ≤ fs.2) ∧
        scores.countP (fun fs => decide (lowT ≤ fs.2)) = 1 then some HSink.high
    else some HSink.other

/-- The routing rule as the specification states it (claim C2): low when
every score is at most the low threshold, else high when some score
reaches the high threshold and exactly one entry reaches the low
threshold, else other. -/
def claimRoute (scores : List (String × ℚ)) (lowT highT : ℚ) : HSink :=
  if ∀ fs ∈ scores, fs.2 ≤ lowT then HSink.low
  else if (∃ fs ∈ scores, highT ≤ fs.2) ∧
      scores.countP (fun fs => decide (lowT ≤ fs.2)) = 1 then HSink.high
  else HSink.other

/-- The two sinks of a `ClanSifter`. -/
inductive CSink
  | same
  | different
deriving DecidableEq

/-- `ClanSifter.sift` (lines 103-115 of `sifter.py`), as the ordered list
of routing decisions issued for one packet.  `clanOf` models the external
`Clans().clan_for_family` lookup (`none` = no clan).  The missing early
exit after the first `same_sink` dispatch is reproduced: the second
dispatch always happens.  The source condition `None not in clans` tests
membership of `None` among the dict KEYS (family accessions, which are
strings), so it always holds and the decision reduces to
`len(set(clans.values())) == 1`. -/
def clanSift (scores : List (String × ℚ)) (clanOf : String → Option String)
    (threshold : ℚ) : List CSink :=
  let thresholdFams := scores.filter (fun fs => decide (threshold < fs.2))
  let clans := thresholdFams.map (fun fs => clanOf fs.1)
  (if thresholdFams.length ≤ 1 then [CSink.same] else [])
    ++ [if clans.toFinset.card = 1 then CSink.same else CSink.different]

/-- The two sinks of a `SizeSifter`. -/
inductive SSink
  | bigger
  | smaller
deriving DecidableEq

/-- `SizeSifter.sift` (lines 128-151 of `sifter.py`).  `sizes` models the
repository size table `self.sizes.sizes`, `searchSize` the value of
`self.sizes.size_method(data[SEARCH])`.  The accumulator update
`bigger |= False` is transcribed as `bigger := bigger || false`. -/
def sizeSift (scores : List (String × ℚ)) (sizes : String → ℚ)
    (searchSize : ℚ) (absT relT : Option ℚ) : SSink :=
  let absSizes := scores.map (fun fs => (fs.1, sizes fs.1))
  let relSizes := absSizes.map (fun fs => (fs.1, searchSize / fs.2))
  let bigger : Bool := true
  let bigger : Bool := match absT with
    | none => bigger
    | some t =>
      if 0 < absSizes.countP (fun fs => decide (fs.2 < t)) then bigger || false
      else bigger
  let bigger : Bool := match relT with
    | none => bigger
    | some t =>
      if 0 < relSizes.countP (fun fs => decide (fs.2 < t)) then bigger || false
      else bigger
  if bigger then SSink.bigger else SSink.smaller

/-! ### Family memoization (`Family.py` caches, served by `pfam.py`) -/

/-- The mutable state of a non-finalised `Family`: the region log plus the
two memoization dicts `self._signatures` and `self._fhashes`, keyed by the
identity of the `Hashes` repository object (modelled as `ℕ`). -/
structure FamCache (V : Type) where
  regions : List (String × ℤ × ℤ)
  sigCache : ℕ → Option V
  fhCache : ℕ → Option V

/-- `Family.add_region` on a non-finalised family: append the region,
reset `self._signatures = {}`, and leave `self._fhashes` untouched. -/
def addRegion {V : Type} (st : FamCache V) (acc : String) (s e : ℤ) :
    FamCache V :=
  { regions := st.regions ++ [(acc, s, e)],
    sigCache := fun _ => none,
    fhCache := st.fhCache }

/-- `Family.signature(hashes)`: return the memo if present, else compute
`hashes.signature(self)` — modelled by `sigFun` applied to the repository
id and the current region log — and store it. -/
def signatureOp {V : Type} (sigFun : ℕ → List (String × ℤ × ℤ) → V)
    (st : FamCache V) (h : ℕ) : V × FamCache V :=
  match st.sigCache h with
  | some v => (v, st)
  | none =>
    (sigFun h st.regions,
      { st with
        sigCache := Function.update st.sigCache h (some (sigFun h st.regions)) })

/-- `Family.full_hash(hashes)`: the same memo pattern over `_fhashes`. -/
def fullHashOp {V : Type} (fhFun : ℕ → List (String × ℤ × ℤ) → V)
    (st : FamCache V) (h : ℕ) : V × FamCache V :=
  match st.fhCache h with
  | some v => (v, st)
  | none =>
    (fhFun h st.regions,
      { st with
        fhCache := Function.update st.fhCache h (some (fhFun h st.regions)) })

/-! ### Packets and the base `Sifter.sift` (`sifter.py`, lines 22-40) -/

/-- A result packet: the identifier `data[ID]` plus the identity of its
audit-trail list object `data[SIFTS]` (a Python list, identified by its
address in the heap below). -/
structure Packet where
  pid : ℕ
  siftsRef : ℕ

/-- The store of Python list objects: address → list of stage ids. -/
abbrev ListHeap := ℕ → List ℕ

/-- The base `Sifter.sift` (lines 30-34): `out_data = copy.copy(data)` is
a SHALLOW copy — a fresh dict holding the same values, in particular the
same audit-list reference — and `out_data[SIFTS].append(self)` then
mutates that shared list in the heap. -/
def siftBase (stage : ℕ) (d : Packet) (h : ListHeap) : Packet × ListHeap :=
  ({ pid := d.pid, siftsRef := d.siftsRef },
    Function.update h d.siftsRef (h d.siftsRef ++ [stage]))

lemma foldl_mergeStep_eq (rs : List Rg) :
    ∀ (acc : List Rg) (cur : Rg),
      (rs.foldl mergeStep (acc ++ [cur])) = acc ++ mergeGo cur rs := by
  induction rs with
  | nil => intro acc cur; simp [mergeGo]
  | cons r rs ih =>
    intro acc cur
    simp only [List.foldl_cons, mergeGo]
    by_cases h : mergeCond cur r
    · have hstep : mergeStep (acc ++ [cur]) r
          = acc ++ [(min cur.1 r.1, max cur.2 r.2)] := by
        simp [mergeStep, List.getLast?_concat, h, List.dropLast_concat]
      rw [hstep, ih, if_pos h]
    · have hstep : mergeStep (acc ++ [cur]) r = (acc ++ [cur]) ++ [r] := by
        simp [mergeStep, List.getLast?_concat, h]
      rw [hstep, ih, if_neg h]
      simp

lemma foldl_mergeStep_nil_cons (r : Rg) (rs : List Rg) :
    ((r :: rs).foldl mergeStep []) = mergeGo r rs := by
  have h0 : mergeStep [] r = [r] := by simp [mergeStep]
  have h := foldl_mergeStep_eq rs [] r
  simpa [h0] using h

lemma rgLe_start {a b : Rg} (h : rgLe a b) : a.1 ≤ b.1 := by
  unfold rgLe at h; omega

lemma coversL_nil (x : ℤ) : ¬ coversL [] x := by simp [coversL]

lemma coversL_cons (r : Rg) (l : List Rg) (x : ℤ) :
    coversL (r :: l) x ↔ covers r x ∨ coversL l x := by
  simp [coversL]

/-- Under the sort order and for nonempty ranges, the merging test of
`_merge_ranges` is exactly "the next range starts no later than the current
one stops" (overlapping or exactly adjacent). -/
lemma mergeCond_iff {r1 r2 : Rg} (h1 : validR r1) (h2 : validR r2)
    (hle : r1.1 ≤ r2.1) : mergeCond r1 r2 ↔ r2.1 ≤ r1.2 := by
  unfold validR at h1 h2
  simp only [mergeCond, olen, ovl]
  omega

lemma mergeGo_spec (rs : List Rg) :
    ∀ (cur : Rg), validR cur → (∀ r ∈ rs, validR r) →
    (∀ r ∈ rs, rgLe cur r) → List.Sorted rgLe rs →
      (∀ r ∈ mergeGo cur rs, validR r) ∧
      (mergeGo cur rs).Pairwise gapAfter ∧
      (∀ x, coversL (mergeGo cur rs) x ↔ covers cur x ∨ coversL rs x) ∧
      (∀ r ∈ mergeGo cur rs, cur.1 ≤ r.1) := by
  induction rs with
  | nil =>
    intro cur hc _ _ _
    refine ⟨?_, ?_, ?_, ?_⟩
    · intro r hr; simp [mergeGo] at hr; simpa [hr] using hc
    · simp [mergeGo]
    · intro x; simp [mergeGo, coversL_cons, coversL_nil, coversL]
    · intro r hr; simp [mergeGo] at hr; simp [hr]
  | cons r rs ih =>
    intro cur hc hv hcur hsort
    have hvr : validR r := hv r (by simp)
    have hcr : rgLe cur r := hcur r (by simp)
    have hc1r1 : cur.1 ≤ r.1 := rgLe_start hcr
    have hvtail : ∀ r' ∈ rs, validR r' := fun r' h' => hv r' (by simp [h'])
    rw [List.sorted_cons] at hsort
    obtain ⟨hrrel, hsort'⟩ := hsort
    by_cases h : mergeCond cur r
    · -- combine `cur` with `r` and continue
      have hmin : min cur.1 r.1 = cur.1 := min_eq_left hc1r1
      have hout : mergeGo cur (r :: rs) = mergeGo (cur.1, max cur.2 r.2) rs := by
        simp [mergeGo, h, hmin]
      set m : Rg := (cur.1, max cur.2 r.2) with hm
      have hvm : validR m := by
        unfold validR at hc ⊢; simp [hm]; omega
      have hmle : ∀ r' ∈ rs, rgLe m r' := by
        intro r' h'
        have h1 : rgLe cur r' := hcur r' (by simp [h'])
        have h2 : rgLe r r' := hrrel r' h'
        unfold rgLe at h1 h2 ⊢
        simp only [hm]
        omega
      obtain ⟨A, B, C, D⟩ := ih m hvm hvtail hmle hsort'
      have hrs1 : r.1 ≤ cur.2 := by
        rw [mergeCond_iff hc hvr hc1r1] at h; exact h
      have hcovm : ∀ x, covers m x ↔ covers cur x ∨ covers r x := by
        intro x
        unfold validR at hc hvr
        unfold covers
        simp only [hm]
        omega
      refine ⟨?_, ?_, ?_, ?_⟩
      · intro r' h'; exact A r' (by rwa [hout] at h')
      · rwa [hout]
      · intro x
        rw [hout, C x, hcovm x, coversL_cons]
        tauto
      · intro r' h'
        have := D r' (by rwa [hout] at h')
        simpa [hm] using this
    · -- `cur` is frozen; continue with `r`
      have hout : mergeGo cur (r :: rs) = cur :: mergeGo r rs := by
        simp [mergeGo, h]
      have hgap : cur.2 < r.1 := by
        rw [mergeCond_iff hc hvr hc1r1] at h; omega
      obtain ⟨A, B, C, D⟩ := ih r hvr hvtail hrrel hsort'
      refine ⟨?_, ?_, ?_, ?_⟩
      · intro r' h'
        rw [hout, List.mem_cons] at h'
        rcases h' with h' | h'
        · simpa [h'] using hc
        · exact A r' h'
      · rw [hout, List.pairwise_cons]
        refine ⟨?_, B⟩
        intro e he
        have := D e he
        unfold gapAfter
        omega
      · intro x
        rw [hout, coversL_cons, C x, coversL_cons]
      · intro r' h'
        rw [hout, List.mem_cons] at h'
        rcases h' with h' | h'
        · simp [h']
        · have := D r' h'
          omega

lemma rgLeB_trans : ∀ (a b c : Rg), rgLeB a b → rgLeB b c → rgLeB a c := by
  intro a b c hab hbc
  simp only [rgLeB, decide_eq_true_eq] at *
  unfold rgLe at *
  omega

lemma rgLeB_total : ∀ (a b : Rg), rgLeB a b || rgLeB b a := by
  intro a b
  simp only [rgLeB, Bool.or_eq_true, decide_eq_true_eq]
  unfold rgLe
  omega

lemma sortRanges_perm (l : List Rg) : List.Perm (sortRanges l) l :=
  List.mergeSort_perm l rgLeB

lemma sortRanges_sorted (l : List Rg) : List.Sorted rgLe (sortRanges l) := by
  have h := List.sorted_mergeSort rgLeB_trans rgLeB_total l
  refine h.imp ?_
  intro a b hab
  simpa [rgLeB] using hab

lemma coversL_perm {l1 l2 : List Rg} (h : List.Perm l1 l2) (x : ℤ) :
    coversL l1 x ↔ coversL l2 x := by
  unfold coversL
  constructor <;> rintro ⟨r, hr, hc⟩
  · exact ⟨r, h.mem_iff.mp hr, hc⟩
  · exact ⟨r, h.mem_iff.mpr hr, hc⟩

/-- Main structural properties of `_merge_ranges` on nonempty ranges:
every output range is nonempty, consecutive output ranges are separated by
a gap, and coverage is preserved. -/
lemma mergeRanges_spec (l : List Rg) (hval : ∀ r ∈ l, validR r) :
    (∀ r ∈ mergeRanges l, validR r) ∧
    (mergeRanges l).Pairwise gapAfter ∧
    sameCoverage (mergeRanges l) l := by
  have hperm := sortRanges_perm l
  have hsorted := sortRanges_sorted l
  have hvs : ∀ r ∈ sortRanges l, validR r := fun r hr => hval r (hperm.mem_iff.mp hr)
  unfold mergeRanges
  rcases hs : sortRanges l with - | ⟨r, rs⟩
  · rw [hs] at hperm
    have : l = [] := hperm.symm.eq_nil
    subst this
    refine ⟨by simp, by simp, ?_⟩
    intro x; simp
  · rw [hs] at hperm hsorted hvs
    rw [foldl_mergeStep_nil_cons]
    rw [List.sorted_cons] at hsorted
    obtain ⟨A, B, C, _⟩ := mergeGo_spec rs r (hvs r (by simp))
      (fun r' h' => hvs r' (by simp [h'])) hsorted.1 hsorted.2
    refine ⟨A, B, ?_⟩
    intro x
    rw [C x, ← coversL_cons, coversL_perm hperm]

/-- Nonempty gap-separated ranges are sorted under the `(start, stop)` key. -/
lemma gapped_sorted : ∀ {u : List Rg}, (∀ r ∈ u, validR r) →
    u.Pairwise gapAfter → List.Sorted rgLe u := by
  intro u
  induction u with
  | nil => intro _ _; simp
  | cons a l ih =>
    intro hv hp
    rw [List.pairwise_cons] at hp
    rw [List.sorted_cons]
    refine ⟨?_, ih (fun r hr => hv r (by simp [hr])) hp.2⟩
    intro b hb
    have h1 : validR a := hv a (by simp)
    have h2 := hp.1 b hb
    unfold validR at h1
    unfold gapAfter at h2
    unfold rgLe
    omega

lemma sortRanges_eq_self {u : List Rg} (hs : List.Sorted rgLe u) :
    sortRanges u = u :=
  List.eq_of_perm_of_sorted (sortRanges_perm u) (sortRanges_sorted u) hs

lemma mergeGo_gapped : ∀ (rs : List Rg) (cur : Rg),
    (∀ r ∈ cur :: rs, validR r) → (cur :: rs).Pairwise gapAfter →
    mergeGo cur rs = cur :: rs := by
  intro rs
  induction rs with
  | nil => intro cur _ _; simp [mergeGo]
  | cons r rs ih =>
    intro cur hv hp
    rw [List.pairwise_cons] at hp
    have hvc : validR cur := hv cur (by simp)
    have hvr : validR r := hv r (by simp)
    have hgap : gapAfter cur r := hp.1 r (by simp)
    unfold gapAfter at hgap
    have hle : cur.1 ≤ r.1 := by unfold validR at hvc; omega
    have hnc : ¬ mergeCond cur r := by
      rw [mergeCond_iff hvc hvr hle]; omega
    rw [mergeGo, if_neg hnc, ih r (fun x hx => hv x (by simp at hx ⊢; tauto)) hp.2]

/-- `_merge_ranges` is the identity on a list that is already nonempty,
sorted, and gap-separated. -/
lemma mergeRanges_eq_self {u : List Rg} (hv : ∀ r ∈ u, validR r)
    (hp : u.Pairwise gapAfter) : mergeRanges u = u := by
  unfold mergeRanges
  rw [sortRanges_eq_self (gapped_sorted hv hp)]
  cases u with
  | nil => rfl
  | cons r rs => rw [foldl_mergeStep_nil_cons]; exact mergeGo_gapped rs r hv hp

/-- Any list of ranges covering the same points as a nonempty
gap-separated list `u` has at least as many ranges as `u`. -/
lemma gapped_length_le : ∀ (u L : List Rg), u.Pairwise gapAfter →
    (∀ r ∈ u, validR r) → (∀ x, coversL u x ↔ coversL L x) →
    u.length ≤ L.length := by
  intro u
  induction u with
  | nil => intro L _ _ _; simp
  | cons hd rest ih =>
    intro L hp hv hcov
    rw [List.pairwise_cons] at hp
    have hvhd : validR hd := hv hd (by simp)
    unfold validR at hvhd
    -- the point just past `hd` is covered by neither side
    have hq_not_u : ¬ coversL (hd :: rest) hd.2 := by
      rw [coversL_cons]
      rintro (⟨_, h2⟩ | ⟨e, he, h1, _⟩)
      · omega
      · have := hp.1 e he; unfold gapAfter at this; omega
    have hq_not_L : ¬ coversL L hd.2 := fun h => hq_not_u ((hcov hd.2).mpr h)
    -- some range of `L` covers the start of `hd`
    have hhd_cov : coversL L hd.1 := by
      refine (hcov hd.1).mp ?_
      rw [coversL_cons]
      exact Or.inl ⟨le_refl _, hvhd⟩
    obtain ⟨I, hIL, hI1, hI2⟩ := hhd_cov
    -- split `L` at the point `hd.2`
    set p : Rg → Bool := fun J => decide (J.1 ≤ hd.2 ∧ validR J) with hpdef
    have hIlow : I ∈ L.filter p := by
      rw [List.mem_filter]
      refine ⟨hIL, ?_⟩
      simp only [hpdef, decide_eq_true_eq]
      unfold validR
      omega
    have hlow_pos : 0 < (L.filter p).length :=
      List.length_pos_of_mem hIlow
    -- ranges of `L` that reach past `hd.2` cover exactly what `rest` covers
    have hrest_cov : ∀ x, coversL rest x ↔ coversL (L.filter fun J => !(p J)) x := by
      intro x
      constructor
      · rintro ⟨e, he, he1, he2⟩
        have hxq : hd.2 < x := by
          have := hp.1 e he; unfold gapAfter at this; omega
        have hxL : coversL L x := by
          refine (hcov x).mp ?_
          rw [coversL_cons]
          exact Or.inr ⟨e, he, he1, he2⟩
        obtain ⟨J, hJL, hJ1, hJ2⟩ := hxL
        refine ⟨J, ?_, hJ1, hJ2⟩
        rw [List.mem_filter]
        refine ⟨hJL, ?_⟩
        simp only [hpdef, Bool.not_eq_true', decide_eq_false_iff_not]
        rintro ⟨hJq, -⟩
        exact hq_not_L ⟨J, hJL, hJq, by omega⟩
      · rintro ⟨J, hJ, hJ1, hJ2⟩
        rw [List.mem_filter] at hJ
        have hJq : hd.2 < J.1 ∨ ¬ validR J := by
          have := hJ.2
          simpa [hpdef] using this
        have hJv : validR J := by unfold validR; omega
        have hJq' : hd.2 < J.1 := by tauto
        have : coversL (hd :: rest) x := (hcov x).mpr ⟨J, hJ.1, hJ1, hJ2⟩
        rw [coversL_cons] at this
        rcases this with ⟨_, h2⟩ | h
        · omega
        · exact h
    have hrec := ih (L.filter fun J => !(p J)) hp.2
      (fun r hr => hv r (by simp [hr])) hrest_cov
    have hsplit := (List.filter_append_perm p L).length_eq
    rw [List.length_append] at hsplit
    simp only [List.length_cons]
    omega

/-- C5, counterexample: on the zero-length input range `range(5, 5)`,
`_merge_ranges` returns `[range(5, 5)]`, although the empty list of ranges
covers the same points with strictly fewer ranges — so with zero-length
ranges included, the output is not the minimal list of disjoint ranges
covering the same points as the input. -/
theorem c5_merge_not_minimal_on_zero_length :
    mergeRanges [((5 : ℤ), (5 : ℤ))] = [((5 : ℤ), (5 : ℤ))] ∧
    sameCoverage ([] : List Rg) [((5 : ℤ), (5 : ℤ))] ∧
    ¬ (mergeRanges [((5 : ℤ), (5 : ℤ))]).length ≤ ([] : List Rg).length := by
  have hs : sortRanges [((5 : ℤ), (5 : ℤ))] = [((5 : ℤ), (5 : ℤ))] :=
    sortRanges_eq_self (List.sorted_singleton _)
  have hm : mergeRanges [((5 : ℤ), (5 : ℤ))] = [((5 : ℤ), (5 : ℤ))] := by
    unfold mergeRanges
    rw [hs]
    rfl
  refine ⟨hm, ?_, ?_⟩
  · intro x
    constructor
    · intro h
      exact absurd h (coversL_nil x)
    · intro h
      simp only [coversL, covers, List.mem_singleton] at h
      obtain ⟨r, hr, h1, h2⟩ := h
      subst hr
      simp at h1 h2
      omega
  · rw [hm]
    simp

/-- C5, amended: for a finite collection of nonempty integer ranges,
`_merge_ranges` returns a sorted, pairwise gap-separated (disjoint and
non-adjacent) list of nonempty ranges covering the same points as the
input, minimal in length among all range lists with that coverage, and is
idempotent on such collections. -/
theorem c5_merge_minimal_sorted_idempotent (l : List Rg)
    (hval : ∀ r ∈ l, validR r) :
    sameCoverage (mergeRanges l) l ∧
    (∀ r ∈ mergeRanges l, validR r) ∧
    (mergeRanges l).Pairwise gapAfter ∧
    List.Sorted rgLe (mergeRanges l) ∧
    (∀ L, sameCoverage L l → (mergeRanges l).length ≤ L.length) ∧
    mergeRanges (mergeRanges l) = mergeRanges l := by
  obtain ⟨A, B, C⟩ := mergeRanges_spec l hval
  refine ⟨C, A, B, gapped_sorted A B, ?_, mergeRanges_eq_self A B⟩
  intro L hL
  exact gapped_length_le (mergeRanges l) L B A (fun x => (C x).trans (hL x).symm)

/-- C5, witness: the amended theorem applied to the concrete ranges
`[range(10, 21), range(15, 21), range(30, 41)]`. -/
theorem c5_merge_witness :
    ([((10 : ℤ), (21 : ℤ)), ((15 : ℤ), (21 : ℤ)), ((30 : ℤ), (41 : ℤ))].all
      (fun r => decide (validR r)) = true) ∧
    mergeRanges (mergeRanges
        [((10 : ℤ), (21 : ℤ)), ((15 : ℤ), (21 : ℤ)), ((30 : ℤ), (41 : ℤ))])
      = mergeRanges
        [((10 : ℤ), (21 : ℤ)), ((15 : ℤ), (21 : ℤ)), ((30 : ℤ), (41 : ℤ))] :=
  ⟨by decide, (c5_merge_minimal_sorted_idempotent _ (by decide)).2.2.2.2.2⟩

lemma unionProteins3_perm (A B C : FamilyR) :
    unionProteins [A, B, C] = unionProteins [B, A, C] ∧
    unionProteins [B, A, C] = unionProteins [C, B, A] := by
  simp only [unionProteins, List.foldl_cons, List.foldl_nil]
  constructor <;> (ext x; simp only [Finset.mem_union]; tauto)

lemma unionTuples3_perm (A B C : FamilyR) (p : String) :
    unionTuples [A, B, C] p = unionTuples [B, A, C] p ∧
    unionTuples [B, A, C] p = unionTuples [C, B, A] p := by
  simp only [unionTuples, List.foldl_cons, List.foldl_nil]
  constructor <;> (ext x; simp only [Finset.mem_union]; tauto)

/-- C6: `Family.union` is commutative and associative across argument
order: `A.union(B, C)`, `B.union(A, C)` and `C.union(B, A)` produce the
same mapping from protein to merged range list.  The hypotheses are the
data-model invariant `start <= end` on every stored region (§3 of the
spec), under which the embedding of Python's set of `range` objects as a
`Finset` of `(start, stop)` pairs is exact. -/
theorem c6_union_comm_assoc (A B C : FamilyR)
    (hA : A.validRegions) (hB : B.validRegions) (hC : C.validRegions) :
    familyUnion [A, B, C] = familyUnion [B, A, C] ∧
    familyUnion [B, A, C] = familyUnion [C, B, A] := by
  constructor <;> funext p
  · simp only [familyUnion, (unionProteins3_perm A B C).1,
      (unionTuples3_perm A B C p).1]
  · simp only [familyUnion, (unionProteins3_perm A B C).2,
      (unionTuples3_perm A B C p).2]

/-- C6, witness: the union theorem applied to the three concrete families
of the repository's own unit tests. -/
theorem c6_union_witness :
    ((FamilyR.mk [("a1", 10, 20), ("a2", 10, 20)]).validRegions ∧
     (FamilyR.mk [("a1", 15, 20), ("a1", 30, 40)]).validRegions ∧
     (FamilyR.mk [("a1", 21, 50), ("a1", 5, 9)]).validRegions) ∧
    familyUnion [FamilyR.mk [("a1", 10, 20), ("a2", 10, 20)],
        FamilyR.mk [("a1", 15, 20), ("a1", 30, 40)],
        FamilyR.mk [("a1", 21, 50), ("a1", 5, 9)]]
      = familyUnion [FamilyR.mk [("a1", 15, 20), ("a1", 30, 40)],
        FamilyR.mk [("a1", 10, 20), ("a2", 10, 20)],
        FamilyR.mk [("a1", 21, 50), ("a1", 5, 9)]] :=
  ⟨⟨by decide, by decide, by decide⟩,
    (c6_union_comm_assoc _ _ _ (by decide) (by decide) (by decide)).1⟩

lemma mem_innerOverlaps {s1 e1 : ℤ} : ∀ {rs2 : List (ℤ × ℤ)},
    List.Sorted rgLe rs2 → ∀ {x : Rg},
    (x ∈ innerOverlaps s1 e1 rs2 ↔
      ∃ t ∈ rs2, 0 < olen (ovl s1 e1 t.1 t.2) ∧ x = ovl s1 e1 t.1 t.2) := by
  intro rs2
  induction rs2 with
  | nil => intro _ x; simp [innerOverlaps]
  | cons t rest ih =>
    intro hsort x
    rw [List.sorted_cons] at hsort
    obtain ⟨hrel, hsort'⟩ := hsort
    obtain ⟨s2, e2⟩ := t
    by_cases hbr : e1 < s2
    · -- the `break` is taken: every remaining candidate overlap is empty
      simp only [innerOverlaps, if_pos hbr]
      constructor
      · intro h
        exact absurd h (List.not_mem_nil x)
      · rintro ⟨t', ht', hlen, -⟩
        have hs : s2 ≤ t'.1 := by
          rcases List.mem_cons.mp ht' with h | h
          · rw [h]
          · exact rgLe_start (hrel t' h)
        unfold olen ovl at hlen
        simp only [lt_max_iff] at hlen
        omega
    · simp only [innerOverlaps, if_neg hbr]
      by_cases hc : 0 < olen (ovl s1 e1 s2 e2)
      · simp only [if_pos hc, List.cons_append, List.nil_append, List.mem_cons,
          ih hsort']
        constructor
        · rintro (h | ⟨t', ht', h1, h2⟩)
          · exact ⟨(s2, e2), by simp, hc, h⟩
          · exact ⟨t', by simp [ht'], h1, h2⟩
        · rintro ⟨t', ht', h1, h2⟩
          rcases ht' with h | h
          · subst h
            exact Or.inl h2
          · exact Or.inr ⟨t', h, h1, h2⟩
      · simp only [if_neg hc, List.nil_append, ih hsort']
        constructor
        · rintro ⟨t', ht', h1, h2⟩
          exact ⟨t', by simp [ht'], h1, h2⟩
        · rintro ⟨t', ht', h1, h2⟩
          rcases List.mem_cons.mp ht' with h | h
          · subst h
            exact absurd h1 hc
          · exact ⟨t', h, h1, h2⟩

/-- The double loop of `Family.overlap` collects exactly the nonempty
pairwise overlaps: the short-circuit `break` only ever skips empty ones. -/
lemma collectOverlaps_eq (r1 r2 : List (ℤ × ℤ)) :
    collectOverlaps r1 r2 = pairOverlaps r1 r2 := by
  ext x
  simp only [collectOverlaps, List.mem_toFinset, List.mem_flatten,
    List.mem_map]
  constructor
  · rintro ⟨L, ⟨t1, ht1, rfl⟩, hx⟩
    rw [mem_innerOverlaps (sortRanges_sorted r2)] at hx
    obtain ⟨t2, ht2, h1, h2⟩ := hx
    subst h2
    simp only [pairOverlaps, Finset.mem_image, Finset.mem_filter,
      Finset.mem_product]
    exact ⟨(t1, t2),
      ⟨⟨List.mem_toFinset.mpr ((sortRanges_perm r1).mem_iff.mp ht1),
        List.mem_toFinset.mpr ((sortRanges_perm r2).mem_iff.mp ht2)⟩, h1⟩,
      rfl⟩
  · intro hx
    simp only [pairOverlaps, Finset.mem_image, Finset.mem_filter,
      Finset.mem_product] at hx
    obtain ⟨q, ⟨⟨hq1, hq2⟩, hlen⟩, rfl⟩ := hx
    refine ⟨innerOverlaps q.1.1 q.1.2 (sortRanges r2),
      ⟨q.1, (sortRanges_perm r1).mem_iff.mpr (List.mem_toFinset.mp hq1), rfl⟩,
      ?_⟩
    rw [mem_innerOverlaps (sortRanges_sorted r2)]
    exact ⟨q.2, (sortRanges_perm r2).mem_iff.mpr (List.mem_toFinset.mp hq2),
      hlen, rfl⟩

lemma pairOverlaps_comm (r1 r2 : List (ℤ × ℤ)) :
    pairOverlaps r1 r2 = pairOverlaps r2 r1 := by
  have hsym : ∀ a b c d : ℤ, ovl a b c d = ovl c d a b := by
    intro a b c d
    unfold ovl
    rw [max_comm, min_comm]
  ext x
  simp only [pairOverlaps, Finset.mem_image, Finset.mem_filter,
    Finset.mem_product]
  constructor
  · rintro ⟨q, ⟨⟨hq1, hq2⟩, hlen⟩, rfl⟩
    exact ⟨(q.2, q.1), ⟨⟨hq2, hq1⟩, by rw [← hsym q.1.1 q.1.2 q.2.1 q.2.2]; exact hlen⟩,
      (hsym q.1.1 q.1.2 q.2.1 q.2.2).symm⟩
  · rintro ⟨q, ⟨⟨hq1, hq2⟩, hlen⟩, rfl⟩
    exact ⟨(q.2, q.1), ⟨⟨hq2, hq1⟩, by rw [← hsym q.1.1 q.1.2 q.2.1 q.2.2]; exact hlen⟩,
      (hsym q.1.1 q.1.2 q.2.1 q.2.2).symm⟩

/-- C10: `Family.overlap` is commutative — the result does not depend on
which family is iterated first, despite the protein-count swap and the
inner-loop short-circuit (which only skips empty overlaps). -/
theorem c10_overlap_comm (a b : FamilyR) :
    familyOverlap a b = familyOverlap b a := by
  have hkey : ∀ x y : FamilyR, overlapPerProtein x y = overlapPerProtein y x := by
    intro x y
    funext p
    unfold overlapPerProtein
    rw [Finset.inter_comm, collectOverlaps_eq, collectOverlaps_eq,
      pairOverlaps_comm]
  unfold familyOverlap
  rcases lt_trichotomy a.proteins.card b.proteins.card with h | h | h
  · rw [if_pos h, if_neg (by omega)]
  · rw [if_neg (by omega), if_neg (by omega)]
    exact hkey b a
  · rw [if_neg (by omega), if_pos h]

/-- C1, counterexample: on `S = {1, 2}`, `T = {2}` the code returns
`|S ∩ T| / |S| = 1/2`, not the specified `|S ∩ T| / |T| = 1` — the
denominator of `jaccard_containment(s, t)` is `len(s)`, not `len(t)`
(this matches the repository's own unit test
`jaccard_containment({1, 2}, {2}) == 0.5`). -/
theorem c1_containment_counterexample :
    jaccard_containment {1, 2} {2} ≠ specContainment {1, 2} {2} ∧
    jaccard_containment {1, 2} {2} = 1 / 2 ∧
    specContainment {1, 2} {2} = 1 := by
  have h1 : (({1, 2} : Finset ℕ) ∩ {2}).card = 1 := by decide
  have h2 : ({1, 2} : Finset ℕ).card = 2 := by decide
  have h3 : ({2} : Finset ℕ).card = 1 := by decide
  unfold jaccard_containment specContainment ratio0
  rw [h1, h2, h3]
  norm_num

/-- C1, amended: `jaccard_containment(s, t)` returns `|s ∩ t| / |s|` (the
containment of the FIRST argument in the second), and returns `0` (not an
error) when the denominator `|s|` is zero. -/
theorem c1_containment_amended (s t : Finset ℕ) :
    (s.Nonempty → jaccard_containment s t = ((s ∩ t).card : ℚ) / s.card) ∧
    (s = ∅ → jaccard_containment s t = 0) := by
  constructor
  · intro hs
    unfold jaccard_containment ratio0
    rw [if_neg (by simpa [Finset.card_eq_zero] using hs.ne_empty)]
  · intro hs
    subst hs
    unfold jaccard_containment ratio0
    simp

/-- C1, witness: the amended containment formula evaluated at
`s = {1, 2}`, `t = {2}`. -/
theorem c1_containment_witness :
    ({1, 2} : Finset ℕ).Nonempty ∧
    jaccard_containment {1, 2} {2}
      = ((({1, 2} : Finset ℕ) ∩ {2}).card : ℚ) / ({1, 2} : Finset ℕ).card :=
  ⟨by decide, (c1_containment_amended {1, 2} {2}).1 (by decide)⟩

/-- C2, counterexample: on an empty catalog every score is vacuously at
most the low threshold, so the claim requires routing to `low_sink`, but
`reduce(operator.and_, ...)` without an initialiser raises `TypeError` on
the empty score sequence and no routing decision is made. -/
theorem c2_hash_route_empty_counterexample :
    ([] : List (String × ℚ)).all (fun fs => decide (fs.2 ≤ 0)) = true ∧
    hashRoute [] 0 1 ≠ some HSink.low := by
  refine ⟨?_, ?_⟩ <;> decide

/-- C2, amended: for every NONEMPTY catalog score mapping, `HashSifter.sift`
routes exactly as the claim states — `low_sink` when every score is at
most `low_threshold`; otherwise `high_sink` when some score reaches
`high_threshold` and exactly one entry's score reaches `low_threshold`;
otherwise `other_sink` — and in particular all-zero scores are routed to
`low_sink` whenever `0 ≤ low_threshold`. -/
theorem c2_hash_route_nonempty (scores : List (String × ℚ)) (lowT highT : ℚ)
    (hne : scores ≠ []) :
    hashRoute scores lowT highT = some (claimRoute scores lowT highT) ∧
    ((∀ fs ∈ scores, fs.2 = 0) → 0 ≤ lowT →
      hashRoute scores lowT highT = some HSink.low) := by
  have hmain : hashRoute scores lowT highT
      = some (claimRoute scores lowT highT) := by
    cases scores with
    | nil => exact absurd rfl hne
    | cons a l =>
      unfold hashRoute claimRoute
      by_cases h1 : ∀ fs ∈ a :: l, fs.2 ≤ lowT
      · rw [if_pos h1, if_pos h1]
      · rw [if_neg h1, if_neg h1]
        by_cases h2 : (∃ fs ∈ a :: l, highT ≤ fs.2) ∧
            (a :: l).countP (fun fs => decide (lowT ≤ fs.2)) = 1
        · rw [if_pos h2, if_pos h2]
        · rw [if_neg h2, if_neg h2]
  refine ⟨hmain, ?_⟩
  intro hzero hlow
  rw [hmain]
  unfold claimRoute
  rw [if_pos (fun fs hfs => by rw [hzero fs hfs]; exact hlow)]

/-- C2, witness: a single catalog entry with estimated score `0` and
`low_threshold = 0` is routed to `low_sink`. -/
theorem c2_hash_route_witness :
    ([(("PF00001" : String), (0 : ℚ))] ≠ ([] : List (String × ℚ))) ∧
    hashRoute [(("PF00001" : String), (0 : ℚ))] 0 1 = some HSink.low :=
  ⟨by decide,
    (c2_hash_route_nonempty [("PF00001", 0)] 0 1 (by decide)).2
      (by decide) (by decide)⟩

/-- C3: `ClanSifter.sift` does not forward to exactly one sink.  A packet
with no catalog entry above the clan threshold is dispatched twice —
first to `same_sink` (at most one thresholded entry) and then to
`different_sink` (zero distinct clans) — and a packet whose two
thresholded entries both have a null clan is routed to `same_sink`
although the claim requires `different_sink` (the code's
`None not in clans` tests the dict keys, not the clan values). -/
theorem c3_clan_sifter_double_dispatch :
    clanSift [] (fun _ => none) 0 = [CSink.same, CSink.different] ∧
    clanSift [(("PF00001" : String), (1 : ℚ)), (("PF00002" : String), 1)]
      (fun _ => none) 0 = [CSink.same] := by
  refine ⟨?_, ?_⟩ <;> decide

/-- C4: `SizeSifter.sift` can never route to `smaller_sink` — the
accumulator update `bigger |= False` cannot change `bigger` from `True`.
In particular, at the failing input (one matched entry of absolute size
`1` against `abs_threshold = 5`, so the claim requires `smaller_sink`)
the code routes to `bigger_sink`. -/
theorem c4_size_sifter_always_bigger :
    (∀ (scores : List (String × ℚ)) (sizes : String → ℚ)
      (searchSize : ℚ) (absT relT : Option ℚ),
      sizeSift scores sizes searchSize absT relT = SSink.bigger) ∧
    sizeSift [(("PF00001" : String), (1 : ℚ))] (fun _ => 1) 10 (some 5) none
      = SSink.bigger ∧
    (1 : ℚ) < 5 := by
  refine ⟨?_, by decide, by decide⟩
  intro scores sizes searchSize absT relT
  unfold sizeSift
  cases absT <;> cases relT <;> simp

lemma sort_take_toFinset_of_card_le {s : Finset (ℕ × ℕ)} {n : ℕ}
    (h : s.card ≤ n) : ((s.sort hpLe).take n).toFinset = s := by
  rw [List.take_of_length_le (by rw [Finset.length_sort]; exact h),
    Finset.sort_toFinset]

lemma hashPair_injective (hf : ℕ → ℕ) :
    Function.Injective (fun e => (hf e, e)) := by
  intro a b hab
  simpa using congrArg Prod.snd hab

/-- C7: when the union of the base sets fits in the signature length
(`|S ∪ T| <= n`, so truncation has no effect), the MinHash estimate over
the signatures equals the exact Jaccard index, for every hash function;
and `minhash` returns `0` whenever the union signature is empty. -/
theorem c7_minhash_exact (S T : Finset ℕ) (n : ℕ) (hf : ℕ → ℕ)
    (hn : (S ∪ T).card ≤ n) :
    minhash (mhSignature hf S n) (mhSignature hf T n) n = jaccard S T ∧
    (∀ (s t : Finset (ℕ × ℕ)) (m : ℕ),
      unionSignature s t m = ∅ → minhash s t m = 0) := by
  constructor
  · have hinj := hashPair_injective hf
    have hS : S.card ≤ n :=
      le_trans (Finset.card_le_card Finset.subset_union_left) hn
    have hT : T.card ≤ n :=
      le_trans (Finset.card_le_card Finset.subset_union_right) hn
    have hsigS : mhSignature hf S n = S.image (fun e => (hf e, e)) := by
      unfold mhSignature
      exact sort_take_toFinset_of_card_le
        (le_trans Finset.card_image_le hS)
    have hsigT : mhSignature hf T n = T.image (fun e => (hf e, e)) := by
      unfold mhSignature
      exact sort_take_toFinset_of_card_le
        (le_trans Finset.card_image_le hT)
    have hX : unionSignature (mhSignature hf S n) (mhSignature hf T n) n
        = (S ∪ T).image (fun e => (hf e, e)) := by
      unfold unionSignature
      rw [hsigS, hsigT, ← Finset.image_union]
      exact sort_take_toFinset_of_card_le
        (by rw [Finset.card_image_of_injective _ hinj]; exact hn)
    have hY : intersectionSignature3
          (unionSignature (mhSignature hf S n) (mhSignature hf T n) n)
          (mhSignature hf S n) (mhSignature hf T n)
        = (S ∩ T).image (fun e => (hf e, e)) := by
      unfold intersectionSignature3
      rw [hX, hsigS, hsigT, ← Finset.image_inter _ _ hinj,
        ← Finset.image_inter _ _ hinj]
      congr 1
      ext x
      simp only [Finset.mem_inter, Finset.mem_union]
      tauto
    unfold minhash jaccard
    rw [hY, hX, Finset.card_image_of_injective _ hinj,
      Finset.card_image_of_injective _ hinj]
  · intro s t m h0
    unfold minhash
    rw [h0]
    simp [ratio0, intersectionSignature3]

/-- C7, witness: the equality evaluated on the repository's own unit-test
sets `S = {1, 2}`, `T = {2}` with `n = 5` and the identity hash. -/
theorem c7_minhash_witness :
    (({1, 2} : Finset ℕ) ∪ {2}).card ≤ 5 ∧
    minhash (mhSignature (fun e => e) {1, 2} 5)
        (mhSignature (fun e => e) {2} 5) 5
      = jaccard {1, 2} {2} :=
  ⟨by decide, (c7_minhash_exact {1, 2} {2} 5 (fun e => e) (by decide)).1⟩

/-- C8, counterexample: the `_fhashes` memo is NOT invalidated by
`add_region` (only `_signatures` is reset), so `full_hash` can return a
stale value.  With the repository's `full_hash` modelled as the region
count: a family caches `full_hash = 1` over one region, gains a second
region, and `full_hash` still returns the stale `1` although the fresh
value over the current regions is `2`. -/
theorem c8_full_hash_stale :
    (fullHashOp (fun _ rs => rs.length)
      (addRegion
        ((fullHashOp (fun _ rs => rs.length)
          (addRegion ⟨[], fun _ => none, fun _ => none⟩ "p1" 1 2) 0).2)
        "p2" 3 4) 0).1 = 1 ∧
    (addRegion
        ((fullHashOp (fun _ rs => rs.length)
          (addRegion ⟨[], fun _ => none, fun _ => none⟩ "p1" 1 2) 0).2)
        "p2" 3 4).regions.length = 2 := by
  constructor <;> rfl

/-- C8, amended: on a non-finalised family, `add_region` resets the
signature memo — a subsequent `signature(h)` recomputes from the current
region set for every repository — but carries the full-hash memo
`_fhashes` over unchanged, so a subsequent `full_hash(h)` may return a
value cached before the add. -/
theorem c8_add_region_invalidates_signatures_only {V : Type}
    (sigFun : ℕ → List (String × ℤ × ℤ) → V)
    (st : FamCache V) (acc : String) (s e : ℤ) (h : ℕ) :
    (signatureOp sigFun (addRegion st acc s e) h).1
      = sigFun h (addRegion st acc s e).regions ∧
    (addRegion st acc s e).fhCache = st.fhCache :=
  ⟨rfl, rfl⟩

/-- C9, counterexample: `Sifter.sift` mutates the caller's packet.
`out_data = copy.copy(data)` shares the audit-trail list, so
`out_data[SIFTS].append(self)` grows the input packet's audit trail: a
packet whose audit list (heap address 0) was `[]` sees `[7]` there after
stage `7` sifts it. -/
theorem c9_sift_mutates_audit_trail :
    ((siftBase 7 ⟨0, 0⟩ (fun _ => [])).2) 0 = [7] ∧
    ((siftBase 7 ⟨0, 0⟩ (fun _ => [])).2) 0 ≠ (fun _ : ℕ => ([] : List ℕ)) 0 := by
  refine ⟨?_, ?_⟩ <;> decide

/-- C9, amended: each stage's base `sift` makes a SHALLOW copy — the
output packet is a fresh top-level mapping with the same identifier and
the same audit-list reference — and appends the stage to the shared audit
list in place: after the call the caller's packet's audit trail has the
stage appended (no other heap cell changes); the top-level mapping of the
caller's packet itself is not replaced or re-keyed. -/
theorem c9_sift_shallow_copy (stage : ℕ) (d : Packet) (h : ListHeap) :
    (siftBase stage d h).1.pid = d.pid ∧
    (siftBase stage d h).1.siftsRef = d.siftsRef ∧
    (siftBase stage d h).2 d.siftsRef = h d.siftsRef ++ [stage] ∧
    (∀ r, r ≠ d.siftsRef → (siftBase stage d h).2 r = h r) := by
  refine ⟨rfl, rfl, ?_, ?_⟩
  · simp [siftBase]
  · intro r hr
    simp [siftBase, Function.update_noteq hr]

/-- C9, witness: the shallow-copy behaviour at a concrete packet and
heap. -/
theorem c9_sift_shallow_copy_witness :
    (siftBase 7 ⟨0, 0⟩ (fun _ => [])).2 0 = [] ++ [7] ∧
    (1 : ℕ) ≠ 0 ∧
    (siftBase 7 ⟨0, 0⟩ (fun _ => [])).2 1 = (fun _ : ℕ => ([] : List ℕ)) 1 :=
  ⟨(c9_sift_shallow_copy 7 ⟨0, 0⟩ (fun _ => [])).2.2.1,
    by decide,
    (c9_sift_shallow_copy 7 ⟨0, 0⟩ (fun _ => [])).2.2.2 1 (by decide)⟩

end SearchSifter
